import Mathlib

/-!
Shallow embedding of the diarization alignment core of the repository
(`server/utils/diarization_utils.py`): the alignment of transcription
segments with diarization segments (`map_transcription_to_diarization`,
first loop), the adjacent same-speaker merge (second loop), and the
transcript formatter (`format_combined_segments`).

Times are Python floats in the source; they are modelled here as exact
rationals (`ℚ`).  Python dicts with fixed keys are modelled as structures.
The imperative list-append loops are modelled as `List.foldl` over an
accumulator, mirroring the loop body statement by statement.
-/

/-- A transcription segment: a dict with `start`, `end`, `text`. -/
structure TranscriptionSegment where
  start : ℚ
  «end» : ℚ
  text : String
deriving Repr, DecidableEq

/-- A diarization segment: a dict with `start`, `end`, `speaker`. -/
structure DiarizationSegment where
  start : ℚ
  «end» : ℚ
  speaker : String
deriving Repr, DecidableEq

/-- An attributed segment, as appended to `unified_transcript` /
`merged_transcript`: a dict with `start`, `end`, `speaker`, `text`. -/
structure AttributedSegment where
  start : ℚ
  «end» : ℚ
  speaker : String
  text : String
deriving Repr, DecidableEq

/-- The list comprehension collecting the soft-match candidates:
keep `dia` when `max(dia.start, trans_start) - min(dia.end, trans_end) < tolerance`. -/
def overlappingSegments (diarization : List DiarizationSegment)
    (trans : TranscriptionSegment) (tolerance : ℚ) : List DiarizationSegment :=
  diarization.filter
    (fun dia => max dia.start trans.start - min dia.«end» trans.«end» < tolerance)

/-- Body of the inner `for dia in overlapping_segments` loop: compute the
hard overlap window and append the attributed segment when
`overlap_start < overlap_end`. -/
def emitOverlap (trans : TranscriptionSegment) (acc : List AttributedSegment)
    (dia : DiarizationSegment) : List AttributedSegment :=
  let overlap_start := max dia.start trans.start
  let overlap_end := min dia.«end» trans.«end»
  if overlap_start < overlap_end then
    acc ++ [⟨overlap_start, overlap_end, dia.speaker, trans.text⟩]
  else
    acc

/-- Body of the outer `for trans in transcription` loop: append the single
`UNKNOWN` segment when there is no soft-match candidate, otherwise run the
inner loop over the candidates. -/
def alignStep (diarization : List DiarizationSegment) (tolerance : ℚ)
    (acc : List AttributedSegment) (trans : TranscriptionSegment) : List AttributedSegment :=
  let overlapping := overlappingSegments diarization trans tolerance
  if overlapping = [] then
    acc ++ [⟨trans.start, trans.«end», "UNKNOWN", trans.text⟩]
  else
    overlapping.foldl (emitOverlap trans) acc

/-- The first loop of `map_transcription_to_diarization`, building
`unified_transcript`. -/
def alignUnified (transcription : List TranscriptionSegment)
    (diarization : List DiarizationSegment) (tolerance : ℚ) : List AttributedSegment :=
  transcription.foldl (alignStep diarization tolerance) []

/-- Body of the merge loop: if `merged_transcript` is nonempty and the last
entry has the same speaker, mutate that last entry (`end` replaced,
`" " + text` appended); otherwise append `seg`. -/
def mergeStep (merged : List AttributedSegment) (seg : AttributedSegment) :
    List AttributedSegment :=
  match merged.getLast? with
  | some last =>
      if seg.speaker = last.speaker then
        merged.dropLast ++ [{ last with «end» := seg.«end», text := last.text ++ " " ++ seg.text }]
      else
        merged ++ [seg]
  | none => merged ++ [seg]

/-- The second loop of `map_transcription_to_diarization`: merge adjacent
segments with the same speaker. -/
def mergeSegments (unified : List AttributedSegment) : List AttributedSegment :=
  unified.foldl mergeStep []

/-- The public operation `map_transcription_to_diarization(transcription,
diarization, tolerance)`: build `unified_transcript`, then return the
merged transcript. -/
def map_transcription_to_diarization (transcription : List TranscriptionSegment)
    (diarization : List DiarizationSegment) (tolerance : ℚ) : List AttributedSegment :=
  mergeSegments (alignUnified transcription diarization tolerance)

/-- The Python fixed-point rendering with two decimals (format spec .2f)
modelled on exact rationals:
round to hundredths and print with exactly two digits after the point.
(On every value whose hundredths are exact — all values in this
development — this agrees with the float formatting of the source.) -/
def formatFixed2 (q : ℚ) : String :=
  let n : ℤ := round (q * 100)
  toString (Int.ediv n 100) ++ "." ++
    (if Int.emod n 100 < 10 then "0" else "") ++ toString (Int.emod n 100)

/-- One line of the formatter, from the f-string of the source:
an open bracket, start and end with two decimals separated by a dash, a
close bracket, a space, the speaker, a colon and a space, then the text. -/
def formatLine (segment : AttributedSegment) : String :=
  "[" ++ formatFixed2 segment.start ++ "-" ++ formatFixed2 segment.«end» ++ "] " ++
    segment.speaker ++ ": " ++ segment.text

/-- `format_combined_segments`: `"\n".join(...)` over the formatted lines. -/
def format_combined_segments (combined_segments : List AttributedSegment) : String :=
  String.intercalate "\n" (combined_segments.map formatLine)

/-! ## Characterisations of the loops, used by the theorems below -/

/-- The attributed segment a single candidate contributes: `some` exactly when
the hard overlap window is non-degenerate. -/
def hardEmit (trans : TranscriptionSegment) (dia : DiarizationSegment) :
    Option AttributedSegment :=
  let overlap_start := max dia.start trans.start
  let overlap_end := min dia.«end» trans.«end»
  if overlap_start < overlap_end then
    some ⟨overlap_start, overlap_end, dia.speaker, trans.text⟩
  else
    none

/-- The list of attributed segments one transcription segment contributes. -/
def alignSegment (diarization : List DiarizationSegment) (tolerance : ℚ)
    (trans : TranscriptionSegment) : List AttributedSegment :=
  let overlapping := overlappingSegments diarization trans tolerance
  if overlapping = [] then [⟨trans.start, trans.«end», "UNKNOWN", trans.text⟩]
  else overlapping.filterMap (hardEmit trans)

lemma foldl_emitOverlap (trans : TranscriptionSegment) (l : List DiarizationSegment) :
    ∀ acc : List AttributedSegment,
      l.foldl (emitOverlap trans) acc = acc ++ l.filterMap (hardEmit trans) := by
  induction l with
  | nil => intro acc; simp
  | cons d rest ih =>
      intro acc
      simp only [List.foldl_cons, List.filterMap_cons]
      by_cases h : max d.start trans.start < min d.«end» trans.«end»
      · simp only [emitOverlap, hardEmit, if_pos h, ih, List.append_assoc]
        rfl
      · simp only [emitOverlap, hardEmit, if_neg h, ih]

lemma alignStep_eq (dia : List DiarizationSegment) (tol : ℚ)
    (acc : List AttributedSegment) (t : TranscriptionSegment) :
    alignStep dia tol acc t = acc ++ alignSegment dia tol t := by
  unfold alignStep alignSegment
  by_cases h : overlappingSegments dia t tol = []
  · simp [h]
  · simp [h, foldl_emitOverlap]

/-- The first loop is the in-order concatenation of the per-transcription-segment
contributions. -/
lemma alignUnified_eq_flatMap (trans : List TranscriptionSegment)
    (dia : List DiarizationSegment) (tol : ℚ) :
    alignUnified trans dia tol = trans.flatMap (alignSegment dia tol) := by
  suffices h : ∀ acc, trans.foldl (alignStep dia tol) acc
      = acc ++ trans.flatMap (alignSegment dia tol) by
    simpa using h []
  induction trans with
  | nil => intro acc; simp
  | cons t rest ih =>
      intro acc
      simp [List.foldl_cons, alignStep_eq, ih, List.flatMap_cons, List.append_assoc]

/-- The in-place extension of the previous merged entry: its `end` is
replaced by the `end` of `seg`, and a space plus the text of `seg` is
appended to its text. -/
def mergeExtend (last seg : AttributedSegment) : AttributedSegment :=
  { last with «end» := seg.«end», text := last.text ++ " " ++ seg.text }

/-- Recursive form of the merge loop, carrying the still-open current turn. -/
def mergeAux (cur : AttributedSegment) : List AttributedSegment → List AttributedSegment
  | [] => [cur]
  | seg :: rest =>
      if seg.speaker = cur.speaker then mergeAux (mergeExtend cur seg) rest
      else cur :: mergeAux seg rest

lemma foldl_mergeStep (l : List AttributedSegment) :
    ∀ (acc : List AttributedSegment) (cur : AttributedSegment),
      l.foldl mergeStep (acc ++ [cur]) = acc ++ mergeAux cur l := by
  induction l with
  | nil => intro acc cur; simp [mergeAux]
  | cons seg rest ih =>
      intro acc cur
      have hstep : mergeStep (acc ++ [cur]) seg =
          if seg.speaker = cur.speaker then acc ++ [mergeExtend cur seg]
          else (acc ++ [cur]) ++ [seg] := by
        simp [mergeStep, List.getLast?_concat, List.dropLast_concat, mergeExtend]
      by_cases h : seg.speaker = cur.speaker
      · rw [List.foldl_cons, hstep, if_pos h, ih acc (mergeExtend cur seg),
          mergeAux, if_pos h]
      · rw [List.foldl_cons, hstep, if_neg h, ih (acc ++ [cur]) seg,
          mergeAux, if_neg h]
        simp

/-- The merge loop in recursive form. -/
lemma mergeSegments_cons (s : AttributedSegment) (l : List AttributedSegment) :
    mergeSegments (s :: l) = mergeAux s l := by
  have h0 : mergeStep [] s = [] ++ [s] := by simp [mergeStep]
  simpa using (by rw [mergeSegments, List.foldl_cons, h0]; exact foldl_mergeStep l [] s)

/-- With an empty diarization list there is never a soft-match candidate, so the
first loop copies every transcription segment as `UNKNOWN`. -/
lemma alignUnified_nil_diarization (trans : List TranscriptionSegment) (tol : ℚ) :
    alignUnified trans [] tol
      = trans.map (fun t => ⟨t.start, t.«end», "UNKNOWN", t.text⟩) := by
  rw [alignUnified_eq_flatMap]
  induction trans with
  | nil => simp
  | cons t rest ih =>
      simp only [List.flatMap_cons, List.map_cons, ih]
      simp [alignSegment, overlappingSegments]

lemma mergeAux_head : ∀ (l : List AttributedSegment) (cur : AttributedSegment),
    ∃ hd tl, mergeAux cur l = hd :: tl ∧ hd.speaker = cur.speaker := by
  intro l
  induction l with
  | nil => intro cur; exact ⟨cur, [], rfl, rfl⟩
  | cons s rest ih =>
      intro cur
      by_cases h : s.speaker = cur.speaker
      · obtain ⟨hd, tl, heq, hsp⟩ := ih (mergeExtend cur s)
        refine ⟨hd, tl, ?_, hsp⟩
        rw [mergeAux, if_pos h]
        exact heq
      · exact ⟨cur, mergeAux s rest, by rw [mergeAux, if_neg h], rfl⟩

lemma mergeAux_chain' : ∀ (l : List AttributedSegment) (cur : AttributedSegment),
    List.Chain' (fun a b => a.speaker ≠ b.speaker) (mergeAux cur l) := by
  intro l
  induction l with
  | nil => intro cur; simp [mergeAux]
  | cons s rest ih =>
      intro cur
      by_cases h : s.speaker = cur.speaker
      · rw [mergeAux, if_pos h]
        exact ih (mergeExtend cur s)
      · rw [mergeAux, if_neg h]
        obtain ⟨hd, tl, heq, hsp⟩ := mergeAux_head rest s
        rw [heq]
        refine List.Chain'.cons ?_ ?_
        · rw [hsp]
          exact fun hc => h hc.symm
        · rw [← heq]
          exact ih s

lemma intercalate_go_append (s : String) (l : List String) :
    ∀ (a b : String), String.intercalate.go (a ++ b) s l = a ++ String.intercalate.go b s l := by
  induction l with
  | nil => intro a b; simp [String.intercalate.go]
  | cons c rest ih =>
      intro a b
      simp only [String.intercalate.go]
      rw [show a ++ b ++ s ++ c = a ++ (b ++ s ++ c) by simp [String.append_assoc]]
      exact ih a (b ++ s ++ c)

lemma intercalate_cons_cons (s a b : String) (l : List String) :
    String.intercalate s (a :: b :: l) = a ++ s ++ String.intercalate s (b :: l) := by
  simp only [String.intercalate]
  have h1 : String.intercalate.go a s (b :: l) = String.intercalate.go (a ++ s ++ b) s l := by
    simp [String.intercalate.go]
  rw [h1, intercalate_go_append s l (a ++ s) b]

lemma intercalate_append_head (s a b : String) (l : List String) :
    String.intercalate s ((a ++ s ++ b) :: l) = a ++ s ++ String.intercalate s (b :: l) := by
  cases l with
  | nil => rfl
  | cons c more =>
      rw [intercalate_cons_cons, intercalate_cons_cons]
      simp [String.append_assoc]

/-- When every segment carries the current speaker, the merge loop collapses
everything into one turn: start of the first, end of the last, space-joined
texts. -/
lemma mergeAux_all_same : ∀ (l : List AttributedSegment) (cur : AttributedSegment),
    (∀ s ∈ l, s.speaker = cur.speaker) →
    mergeAux cur l = [⟨cur.start, (l.map (fun s => s.«end»)).getLastD cur.«end»,
      cur.speaker, String.intercalate " " (cur.text :: l.map (fun s => s.text))⟩] := by
  intro l
  induction l with
  | nil => intro cur _; rfl
  | cons s rest ih =>
      intro cur hsp
      have hs : s.speaker = cur.speaker := hsp s (List.mem_cons_self _ _)
      rw [mergeAux, if_pos hs,
        ih (mergeExtend cur s) (fun r hr => hsp r (List.mem_cons_of_mem _ hr))]
      simp only [mergeExtend, List.map_cons, List.getLastD_cons]
      rw [intercalate_append_head]
      rw [intercalate_cons_cons]

/-- Invariant preservation for the merge loop under nondecreasing starts. -/
lemma mergeAux_span : ∀ (l : List AttributedSegment) (cur : AttributedSegment),
    (∀ s ∈ l, s.start ≤ s.«end») → (∀ s ∈ l, cur.start ≤ s.start) →
    List.Pairwise (fun a b => a.start ≤ b.start) l → cur.start ≤ cur.«end» →
    ∀ u ∈ mergeAux cur l, u.start ≤ u.«end» := by
  intro l
  induction l with
  | nil =>
      intro cur _ _ _ hcur u hu
      rw [mergeAux, List.mem_singleton] at hu
      exact hu ▸ hcur
  | cons s rest ih =>
      intro cur hvalid hge hpw hcur u hu
      have hs : s.start ≤ s.«end» := hvalid s (List.mem_cons_self _ _)
      have hcs : cur.start ≤ s.start := hge s (List.mem_cons_self _ _)
      have hpw' := List.pairwise_cons.mp hpw
      rw [mergeAux] at hu
      by_cases h : s.speaker = cur.speaker
      · rw [if_pos h] at hu
        refine ih (mergeExtend cur s)
          (fun r hr => hvalid r (List.mem_cons_of_mem _ hr))
          (fun r hr => le_trans hcs (hpw'.1 r hr))
          hpw'.2 (le_trans hcs hs) u hu
      · rw [if_neg h, List.mem_cons] at hu
        rcases hu with rfl | hu
        · exact hcur
        · exact ih s (fun r hr => hvalid r (List.mem_cons_of_mem _ hr))
            hpw'.1 hpw'.2 hs u hu

lemma formatFixed2_zero : formatFixed2 0 = "0.00" := by
  have h : round ((0:ℚ) * 100) = 0 := by norm_num
  simp only [formatFixed2, h]
  rfl

lemma formatFixed2_two : formatFixed2 2 = "2.00" := by
  have h : round ((2:ℚ) * 100) = 200 := by
    rw [show ((2:ℚ) * 100) = ((200:ℤ) : ℚ) by norm_num]
    exact round_intCast 200
  simp only [formatFixed2, h]
  rfl

lemma formatFixed2_three : formatFixed2 3 = "3.00" := by
  have h : round ((3:ℚ) * 100) = 300 := by
    rw [show ((3:ℚ) * 100) = ((300:ℤ) : ℚ) by norm_num]
    exact round_intCast 300
  simp only [formatFixed2, h]
  rfl

/-- C8: `format_combined_segments` renders one line per turn as
`"[start-end] speaker: text"` with two decimal places, joined by single
newlines with no trailing newline: the empty list gives `""`, a singleton
gives exactly its line, prepending a turn prepends its line plus one
newline, and the two example turns render to the documented string. -/
theorem formatter_rendering (a b : AttributedSegment) (l : List AttributedSegment) :
    format_combined_segments [] = ""
    ∧ format_combined_segments [a] = formatLine a
    ∧ format_combined_segments (a :: b :: l)
        = formatLine a ++ "\n" ++ format_combined_segments (b :: l)
    ∧ format_combined_segments [⟨0,2,"S1","hi there"⟩, ⟨2,3,"S2","bye"⟩]
        = "[0.00-2.00] S1: hi there\n[2.00-3.00] S2: bye" := by
  refine ⟨rfl, rfl, ?_, ?_⟩
  · simp only [format_combined_segments, List.map_cons]
    exact intercalate_cons_cons "\n" (formatLine a) (formatLine b) (l.map formatLine)
  · simp only [format_combined_segments, formatLine, List.map_cons, List.map_nil]
    rw [formatFixed2_zero, formatFixed2_two, formatFixed2_three]
    rfl

/-- C4: aligning any transcription against an empty diarization, with any
tolerance `≥ 0`, yields exactly one `UNKNOWN` segment per transcription
segment, preserving `start`, `end` and `text` unchanged. -/
theorem align_empty_diarization_unknown_copy (trans : List TranscriptionSegment)
    (tol : ℚ) (htol : 0 ≤ tol) :
    alignUnified trans [] tol
      = trans.map (fun t => ⟨t.start, t.«end», "UNKNOWN", t.text⟩) :=
  alignUnified_nil_diarization trans tol

theorem align_empty_diarization_unknown_copy_witness :
    alignUnified [⟨0,1,"x"⟩] [] (1/2) = [⟨0,1,"UNKNOWN","x"⟩] := by
  rw [align_empty_diarization_unknown_copy [⟨0,1,"x"⟩] (1/2) (by norm_num)]
  rfl

/-- C6: the alignment output is the in-order concatenation of the
per-transcription-segment contributions, and each contribution walks the
soft-match candidates in diarization-list order (the candidate list is a
sublist of the diarization input — nothing is ever sorted by timestamp). -/
theorem alignment_emission_order (trans : List TranscriptionSegment)
    (dia : List DiarizationSegment) (tol : ℚ) :
    alignUnified trans dia tol = trans.flatMap (alignSegment dia tol)
      ∧ ∀ t, (overlappingSegments dia t tol).Sublist dia :=
  ⟨alignUnified_eq_flatMap trans dia tol, fun _ => List.filter_sublist dia⟩

/-- C7: merging is adjacency-only — in the merged output no two adjacent
turns share a speaker, the documented same-speaker merge example collapses
to two turns, and the interleaved-speaker example stays three distinct
turns. -/
theorem merge_adjacency_only :
    (∀ l : List AttributedSegment,
      List.Chain' (fun a b => a.speaker ≠ b.speaker) (mergeSegments l))
    ∧ mergeSegments [⟨0,1,"S1","hi"⟩, ⟨1,2,"S1","there"⟩, ⟨2,3,"S2","bye"⟩]
        = [⟨0,2,"S1","hi there"⟩, ⟨2,3,"S2","bye"⟩]
    ∧ mergeSegments [⟨0,1,"S1","a"⟩, ⟨1,2,"S2","b"⟩, ⟨2,3,"S1","c"⟩]
        = [⟨0,1,"S1","a"⟩, ⟨1,2,"S2","b"⟩, ⟨2,3,"S1","c"⟩] := by
  refine ⟨fun l => ?_, by decide, by decide⟩
  cases l with
  | nil => simp [mergeSegments]
  | cons s rest =>
      rw [mergeSegments_cons]
      exact mergeAux_chain' rest s

lemma getLastD_map {α β : Type} (f : α → β) : ∀ (l : List α) (a : α),
    (l.map f).getLastD (f a) = f (l.getLastD a) := by
  intro l
  induction l with
  | nil => intro a; rfl
  | cons x xs ih =>
      intro a
      simp only [List.map_cons, List.getLastD_cons]
      exact ih x

/-- C1 (corrected), counterexample: a transcription segment with
`end = 0 < 1 = start` does not make the call fail — it flows through the
normal path and is returned as a normal `UNKNOWN` turn, so the call
neither rejects the input nor withholds output. -/
theorem no_invalid_span_failure_counterexample :
    ((0:ℚ) < 1)
    ∧ map_transcription_to_diarization [⟨1,0,"x"⟩] [] (1/2) = [⟨1,0,"UNKNOWN","x"⟩] := by
  decide

/-- C1 (amended): `map_transcription_to_diarization` performs no span
validation and can never fail — a segment with `end < start` is processed
by the ordinary alignment path, and with no diarization candidate it is
returned unrepaired as a single `UNKNOWN` turn. -/
theorem invalid_span_processed_without_error (s : TranscriptionSegment) (tol : ℚ)
    (hmal : s.«end» < s.start) :
    map_transcription_to_diarization [s] [] tol
      = [⟨s.start, s.«end», "UNKNOWN", s.text⟩] := by
  unfold map_transcription_to_diarization
  rw [alignUnified_nil_diarization, List.map_cons, List.map_nil, mergeSegments_cons]
  rfl

theorem invalid_span_processed_without_error_witness :
    map_transcription_to_diarization [⟨1,0,"x"⟩] [] (1/2) = [⟨1,0,"UNKNOWN","x"⟩] :=
  invalid_span_processed_without_error ⟨1,0,"x"⟩ (1/2) (by norm_num)

/-- C2 (corrected), counterexample: both input segments satisfy
`end ≥ start`, yet merging the same-speaker pair whose second segment ends
before the first begins produces the turn `{3,1}` with `end < start`. -/
theorem merge_span_invariant_counterexample :
    ((3:ℚ) ≤ 5 ∧ (0:ℚ) ≤ 1)
    ∧ mergeSegments [⟨3,5,"S1","a"⟩, ⟨0,1,"S1","b"⟩] = [⟨3,1,"S1","a b"⟩]
    ∧ ¬ ((3:ℚ) ≤ 1) := by
  decide

/-- C2 (amended): the merge step preserves the `end ≥ start` invariant for
every input sequence of valid segments whose `start` values are
nondecreasing (as is the case when a same-speaker segment with an earlier
`end` but no earlier `start` extends the current turn). -/
theorem merge_preserves_span_of_monotone_starts (l : List AttributedSegment)
    (hvalid : ∀ s ∈ l, s.start ≤ s.«end»)
    (hmono : List.Pairwise (fun a b => a.start ≤ b.start) l) :
    ∀ u ∈ mergeSegments l, u.start ≤ u.«end» := by
  cases l with
  | nil => intro u hu; simp [mergeSegments] at hu
  | cons s rest =>
      rw [mergeSegments_cons]
      have hpw := List.pairwise_cons.mp hmono
      exact mergeAux_span rest s
        (fun r hr => hvalid r (List.mem_cons_of_mem _ hr))
        hpw.1 hpw.2 (hvalid s (List.mem_cons_self _ _))

theorem merge_preserves_span_of_monotone_starts_witness :
    (⟨0,2,"S1","hi there"⟩ : AttributedSegment).start
      ≤ (⟨0,2,"S1","hi there"⟩ : AttributedSegment).«end» :=
  merge_preserves_span_of_monotone_starts
    [⟨0,1,"S1","hi"⟩, ⟨1,2,"S1","there"⟩] (by decide) (by decide)
    ⟨0,2,"S1","hi there"⟩ (by decide)

/-- C3: at the public interface the fused pipeline collapses the
consecutive `UNKNOWN` attributions of a multi-segment transcription
aligned against an empty diarization into exactly one turn carrying the
start of the first segment, the end of the last segment, and the
space-join of all texts in order. -/
theorem fused_unknown_collapse (t : TranscriptionSegment)
    (rest : List TranscriptionSegment) (tol : ℚ) (hrest : rest ≠ []) :
    map_transcription_to_diarization (t :: rest) [] tol
      = [⟨t.start, (rest.getLastD t).«end», "UNKNOWN",
          String.intercalate " " ((t :: rest).map (fun s => s.text))⟩] := by
  unfold map_transcription_to_diarization
  rw [alignUnified_nil_diarization, List.map_cons, mergeSegments_cons,
    mergeAux_all_same _ _ (fun r hr => by
      rcases List.mem_map.mp hr with ⟨x, _, rfl⟩
      rfl)]
  have hmap_end :
      ((rest.map (fun r : TranscriptionSegment =>
          (⟨r.start, r.«end», "UNKNOWN", r.text⟩ : AttributedSegment))).map
        (fun s => s.«end»)) = rest.map (fun r => r.«end») := by
    rw [List.map_map]
    rfl
  have hmap_text :
      ((rest.map (fun r : TranscriptionSegment =>
          (⟨r.start, r.«end», "UNKNOWN", r.text⟩ : AttributedSegment))).map
        (fun s => s.text)) = rest.map (fun r => r.text) := by
    rw [List.map_map]
    rfl
  rw [hmap_end, hmap_text, getLastD_map (fun r : TranscriptionSegment => r.«end») rest t]
  rfl

theorem fused_unknown_collapse_witness :
    map_transcription_to_diarization [⟨0,1,"a"⟩, ⟨1,2,"b"⟩] [] (1/2)
      = [⟨0,2,"UNKNOWN","a b"⟩] := by
  rw [fused_unknown_collapse ⟨0,1,"a"⟩ [⟨1,2,"b"⟩] (1/2) (by simp)]
  rfl

/-- C5: a transcription segment whose soft-match candidate set is nonempty
but all of whose candidates fail the hard-overlap test contributes zero
attributed segments — wherever it sits in the transcription, the output is
exactly the output of the remaining segments (silent drop, not UNKNOWN). -/
theorem soft_only_candidates_silent_drop (t : TranscriptionSegment)
    (dia : List DiarizationSegment) (tol : ℚ)
    (hne : overlappingSegments dia t tol ≠ [])
    (hfail : ∀ d ∈ overlappingSegments dia t tol,
      ¬ (max d.start t.start < min d.«end» t.«end»)) :
    ∀ pre post : List TranscriptionSegment,
      alignUnified (pre ++ t :: post) dia tol
        = alignUnified pre dia tol ++ alignUnified post dia tol := by
  intro pre post
  have hseg : alignSegment dia tol t = [] := by
    unfold alignSegment
    rw [if_neg hne]
    rw [List.filterMap_eq_nil_iff]
    intro d hd
    simp only [hardEmit]
    rw [if_neg (hfail d hd)]
  rw [alignUnified_eq_flatMap, alignUnified_eq_flatMap, alignUnified_eq_flatMap,
    List.flatMap_append, List.flatMap_cons, hseg]
  simp

theorem soft_only_candidates_silent_drop_witness :
    alignUnified [⟨0,1,"a"⟩] [⟨13/10,2,"S1"⟩] (1/2) = [] := by
  have hcand : overlappingSegments [⟨13/10,2,"S1"⟩] ⟨0,1,"a"⟩ (1/2)
      = [⟨13/10,2,"S1"⟩] := by
    simp only [overlappingSegments, List.filter]
    norm_num
  have h := soft_only_candidates_silent_drop ⟨0,1,"a"⟩ [⟨13/10,2,"S1"⟩] (1/2)
    (by rw [hcand]; simp)
    (by
      rw [hcand]
      intro d hd
      rw [List.mem_singleton] at hd
      subst hd
      norm_num)
    [] []
  simpa using h

/-- C9: whenever a transcription segment has at least one soft-match
candidate (so everything it emits goes through the true-overlap branch),
every attributed segment it contributes satisfies `end > start`, for all
valid input spans and any tolerance `≥ 0`. -/
theorem true_overlap_segments_nondegenerate (t : TranscriptionSegment)
    (dia : List DiarizationSegment) (tol : ℚ)
    (ht : t.start ≤ t.«end») (hdia : ∀ d ∈ dia, d.start ≤ d.«end») (htol : 0 ≤ tol)
    (hne : overlappingSegments dia t tol ≠ []) :
    ∀ u ∈ alignUnified [t] dia tol, u.start < u.«end» := by
  intro u hu
  rw [alignUnified_eq_flatMap] at hu
  simp only [List.flatMap_cons, List.flatMap_nil, List.append_nil] at hu
  unfold alignSegment at hu
  rw [if_neg hne, List.mem_filterMap] at hu
  obtain ⟨d, _, hemit⟩ := hu
  simp only [hardEmit] at hemit
  by_cases h : max d.start t.start < min d.«end» t.«end»
  · rw [if_pos h, Option.some_inj] at hemit
    subst hemit
    exact h
  · rw [if_neg h] at hemit
    exact absurd hemit (by simp)

theorem true_overlap_segments_nondegenerate_witness :
    (⟨1,2,"S1","hello"⟩ : AttributedSegment).start
      < (⟨1,2,"S1","hello"⟩ : AttributedSegment).«end» := by
  have hcand : overlappingSegments [⟨1,3,"S1"⟩] ⟨0,2,"hello"⟩ (1/2)
      = [⟨1,3,"S1"⟩] := by
    simp only [overlappingSegments, List.filter]
    norm_num
  have halign : alignUnified [⟨0,2,"hello"⟩] [⟨1,3,"S1"⟩] (1/2)
      = [⟨1,2,"S1","hello"⟩] := by
    rw [alignUnified_eq_flatMap]
    simp only [List.flatMap_cons, List.flatMap_nil, alignSegment,
      overlappingSegments, List.filter]
    norm_num
    simp only [List.filterMap_cons, List.filterMap_nil, hardEmit]
    norm_num
  exact true_overlap_segments_nondegenerate ⟨0,2,"hello"⟩ [⟨1,3,"S1"⟩] (1/2)
    (by norm_num)
    (by
      intro d hd
      rw [List.mem_singleton] at hd
      subst hd
      norm_num)
    (by norm_num)
    (by rw [hcand]; simp)
    ⟨1,2,"S1","hello"⟩ (by rw [halign]; simp)

/-- C10: for a genuinely overlapping transcription/diarization pair the
pipeline emits exactly one attributed segment whose span is the hard
overlap window (max of starts, min of ends), whose speaker is the
label of the candidate, and whose text is the full unmodified
transcription text. -/
theorem true_overlap_window_emission (t : TranscriptionSegment)
    (d : DiarizationSegment) (tol : ℚ)
    (hsoft : max d.start t.start - min d.«end» t.«end» < tol)
    (hhard : max d.start t.start < min d.«end» t.«end») :
    map_transcription_to_diarization [t] [d] tol
      = [⟨max d.start t.start, min d.«end» t.«end», d.speaker, t.text⟩] := by
  have hcand : overlappingSegments [d] t tol = [d] := by
    simp [overlappingSegments, List.filter_cons, hsoft]
  unfold map_transcription_to_diarization
  rw [alignUnified_eq_flatMap]
  simp only [List.flatMap_cons, List.flatMap_nil, List.append_nil]
  unfold alignSegment
  rw [hcand, if_neg (by simp)]
  simp only [List.filterMap_cons, List.filterMap_nil, hardEmit]
  rw [if_pos hhard, mergeSegments_cons]
  rfl

theorem true_overlap_window_emission_witness :
    map_transcription_to_diarization [⟨0,2,"hello"⟩] [⟨1,3,"S1"⟩] (1/2)
      = [⟨1,2,"S1","hello"⟩] := by
  rw [true_overlap_window_emission ⟨0,2,"hello"⟩ ⟨1,3,"S1"⟩ (1/2)
    (by norm_num) (by norm_num)]
  norm_num
